import Mathlib

/-!
Verification of the mcfly pipeline core (journal registry, keyword scanner,
code-file identifier, candidate-identification and bundle-download
orchestrators), shallowly embedded from the TypeScript sources in
`src/lib/`. JavaScript strings are modelled as `List Char`, `async`
collaborator functions as `Except`-valued functions, and the orchestrators
as deterministic runs that record the arguments of every collaborator
invocation together with the final outcome.
-/

set_option autoImplicit false

namespace Mcfly

/-! ### Data model (src/lib/types.ts) -/

/-- Model of a JavaScript string: a list of UTF-16-ish characters. -/
abbrev JStr := List Char

/-- An endpoint a journal exposes for article/supplement access. -/
structure JournalEndpoint where
  name : JStr
  url : JStr
deriving DecidableEq

/-- A single journal entry in the registry. -/
structure Journal where
  id : JStr
  displayName : JStr
  endpoints : List JournalEndpoint
deriving DecidableEq

/-- Minimal article metadata returned by a journal's articles endpoint. -/
structure Article where
  id : JStr
  title : JStr
  abstract : JStr
  fullText : JStr
  supplementaryUrl : JStr
deriving DecidableEq

/-- A single file within a supplementary material bundle. -/
structure SupplementaryFile where
  name : JStr
  localPath : JStr
  sizeBytes : Nat
deriving DecidableEq

/-- A downloaded supplementary material bundle for one article. -/
structure SupplementaryBundle where
  articleId : JStr
  articleTitle : JStr
  files : List SupplementaryFile
  tempDir : JStr
deriving DecidableEq

/-! ### JavaScript string primitives -/

/-- Model of `String.prototype.toLowerCase`, character by character. -/
def toLowerCase (s : JStr) : JStr := s.map Char.toLower

/-- Model of `String.prototype.includes`: `jsIncludes needle hay` is true
iff `needle` occurs contiguously inside `hay`. -/
def jsIncludes (needle : JStr) : JStr → Bool
  | [] => needle.isEmpty
  | c :: rest => needle.isPrefixOf (c :: rest) || jsIncludes needle rest

/-- The specification-side notion of substring containment: `needle` occurs
contiguously inside `hay`. -/
def SubstrOf (needle hay : JStr) : Prop :=
  ∃ pre suf, hay = pre ++ needle ++ suf

/-- Model of `String.prototype.lastIndexOf` specialised to the dot
character: the index of the last `.` in the string, or `none` where the
JavaScript original returns `-1`. -/
def lastIndexOfDot : JStr → Option Nat
  | [] => none
  | c :: rest =>
    match lastIndexOfDot rest with
    | some i => some (i + 1)
    | none => if c == '.' then some 0 else none

/-! ### KeywordScanner (src/lib/keyword-scanner.ts)

The scanner's only state is its keyword list, so its methods are modelled
as functions taking the current keyword list. -/

namespace KeywordScanner

/-- The space-joined haystack built by `isCandidate`:
`` `${article.title} ${article.abstract} ${article.fullText}` ``. -/
def joinedFields (article : Article) : JStr :=
  article.title ++ [' '] ++ article.abstract ++ [' '] ++ article.fullText

/-- Model of `KeywordScanner.isCandidate`: false for an empty keyword list,
otherwise true iff some lower-cased keyword occurs in the lower-cased
space-joined concatenation of title, abstract and fullText. -/
def isCandidate (keywords : List JStr) (article : Article) : Bool :=
  if keywords.length = 0 then false
  else
    let haystack := toLowerCase (joinedFields article)
    keywords.any fun kw => jsIncludes (toLowerCase kw) haystack

/-- Model of `KeywordScanner.filterCandidates`. -/
def filterCandidates (keywords : List JStr) (articles : List Article) :
    List Article :=
  articles.filter fun a => isCandidate keywords a

end KeywordScanner

/-! ### JournalRegistry (src/lib/registry.ts)

The registry's state is a JavaScript `Map` from journal id to journal,
modelled as its insertion-ordered entry list (a `List Journal` whose ids
are unique in every reachable state). -/

namespace JournalRegistry

/-- Model of `JournalRegistry.register` (`Map.set`): replace in place the
entry with the same id, or append a new entry at the end. -/
def register (journal : Journal) : List Journal → List Journal
  | [] => [journal]
  | j :: rest =>
    if j.id == journal.id then journal :: rest
    else j :: register journal rest

/-- Model of `JournalRegistry.remove` (`Map.delete`): drop the entry with
the given id, reporting whether it existed. -/
def remove (id : JStr) : List Journal → Bool × List Journal
  | [] => (false, [])
  | j :: rest =>
    if j.id == id then (true, rest)
    else
      let r := remove id rest
      (r.1, j :: r.2)

/-- Model of `JournalRegistry.get` (`Map.get`). -/
def get (id : JStr) : List Journal → Option Journal
  | [] => none
  | j :: rest => if j.id == id then some j else get id rest

/-- Model of `JournalRegistry.list`: all journals in insertion order. -/
def list (registry : List Journal) : List Journal := registry

/-- Model of `JournalRegistry.hasAny` (`Map.size > 0`). -/
def hasAny (registry : List Journal) : Bool := decide (0 < registry.length)

/-- Model of the constructor `new Map(initial.map(j => [j.id, j]))`: the
`Map` constructor sets each entry in turn, so duplicates replace earlier
entries in place. -/
def ofList (initial : List Journal) : List Journal :=
  initial.foldl (fun m j => register j m) []

end JournalRegistry

/-! ### CodeFileIdentifier (src/lib/code-file-identifier.ts)

The identifier's state is its recognised-extension set; the constructor and
`setExtensions` both lower-case the supplied extensions, modelled by
`setExtensions` below. Set membership is modelled by list membership. -/

namespace CodeFileIdentifier

/-- Well-known source-code extensions, the default when none are supplied. -/
def DEFAULT_CODE_EXTENSIONS : List JStr :=
  [".py", ".r", ".rmd", ".m", ".jl", ".js", ".ts", ".java", ".c", ".cpp",
   ".cs", ".go", ".rb", ".sh", ".pl", ".scala", ".kt", ".rs", ".swift",
   ".f90", ".f95", ".lua", ".sql", ".ipynb"].map String.toList

/-- Model of the constructor / `setExtensions`:
`new Set(extensions.map(e => e.toLowerCase()))`. -/
def setExtensions (extensions : List JStr) : List JStr :=
  extensions.map toLowerCase

/-- Model of `CodeFileIdentifier.isCodeFile`: no dot, a dot at position 0,
or a trailing dot means no real extension; otherwise the substring from the
last dot is lower-cased and tested for membership in the extension set. -/
def isCodeFile (extensions : List JStr) (filename : JStr) : Bool :=
  match lastIndexOfDot filename with
  | none => false
  | some lastDot =>
    if lastDot = 0 ∨ lastDot = filename.length - 1 then false
    else extensions.contains (toLowerCase (filename.drop lastDot))

/-- Model of `CodeFileIdentifier.identifyCodeFiles`. -/
def identifyCodeFiles (extensions : List JStr) (bundle : SupplementaryBundle) :
    List SupplementaryFile :=
  bundle.files.filter fun f => isCodeFile extensions f.name

/-- The specification-side reading of "the file name has a recognised code
extension": the name splits as a non-empty stem, a dot, and a non-empty
dot-free extension whose lower-casing (dot included) is among the
lower-cased configured extensions. -/
def HasCodeExt (extensions : List JStr) (name : JStr) : Prop :=
  ∃ stem ext, name = stem ++ '.' :: ext ∧ stem ≠ [] ∧ ext ≠ [] ∧
    '.' ∉ ext ∧ toLowerCase ('.' :: ext) ∈ extensions.map toLowerCase

end CodeFileIdentifier

/-! ### Orchestrator runs

Both orchestrators issue one asynchronous collaborator call per selected
input and aggregate with `Promise.all`. A run records the arguments of the
collaborator invocations (they are all launched before any result is
awaited) and the settled outcome; `Promise.all` is modelled by fail-fast
sequencing in issue order. -/

/-- Outcome of an orchestrator run: resolved value, a collaborator's
rejection propagated unchanged, or the orchestrator's own precondition
error thrown before any collaborator was invoked. -/
inductive Outcome (ε α : Type) where
  | ok (value : α)
  | collabFail (error : ε)
  | preconditionFail
deriving DecidableEq

/-- A run of an orchestrator: the argument of each collaborator invocation
in issue order, and the outcome. -/
structure Run (κ ε α : Type) where
  calls : List κ
  outcome : Outcome ε α
deriving DecidableEq

/-- Model of `Promise.all` over already-settled collaborator results:
resolves with all values in issue order, or rejects with a rejection. -/
def promiseAll {ε β : Type} : List (Except ε β) → Except ε (List β)
  | [] => Except.ok []
  | Except.error e :: _ => Except.error e
  | Except.ok b :: rest =>
    match promiseAll rest with
    | Except.ok bs => Except.ok (b :: bs)
    | Except.error e => Except.error e

/-- How an awaited `Promise.all` settles an orchestrator: resolution becomes
the resolved value, rejection is propagated unchanged. -/
def collabOutcome {ε α : Type} : Except ε α → Outcome ε α
  | Except.ok v => Outcome.ok v
  | Except.error e => Outcome.collabFail e

/-! ### downloadBundles (src/lib/bundle-downloader.ts) -/

/-- Default bundle cap (`DEFAULT_MAX_BUNDLES`). -/
def DEFAULT_MAX_BUNDLES : Rat := 10

/-- Model of `downloadBundles`: validate the cap (a JavaScript number,
modelled as a rational so that non-integral caps are representable), slice
the candidate list to the cap, and download all selected candidates via
`Promise.all`. -/
def downloadBundles {ε : Type}
    (downloadBundle : Article → Except ε SupplementaryBundle)
    (candidates : List Article) (maxBundles : Rat) :
    Run Article ε (List SupplementaryBundle) :=
  if maxBundles.den ≠ 1 ∨ maxBundles < 1 then
    { calls := [], outcome := Outcome.preconditionFail }
  else
    let batch := candidates.take maxBundles.num.toNat
    { calls := batch
      outcome := collabOutcome (promiseAll (batch.map downloadBundle)) }

/-- `downloadBundles` with the cap left at its default. -/
def downloadBundlesDefault {ε : Type}
    (downloadBundle : Article → Except ε SupplementaryBundle)
    (candidates : List Article) : Run Article ε (List SupplementaryBundle) :=
  downloadBundles downloadBundle candidates DEFAULT_MAX_BUNDLES

/-! ### identifyCandidates (src/lib/candidate-identification.ts) -/

/-- Result for one journal. -/
structure JournalCandidateResult where
  journalId : JStr
  candidates : List Article
deriving DecidableEq

/-- Model of `identifyCandidates`: reject when the registry is empty before
any fetch, otherwise fetch one page per registered journal (in registry
list order) via `Promise.all` and filter each journal's articles through
the scanner. -/
def identifyCandidates {ε : Type}
    (fetchArticles : JStr → Int → Except ε (List Article))
    (registry : List Journal) (keywords : List JStr) (page : Int) :
    Run (JStr × Int) ε (List JournalCandidateResult) :=
  if JournalRegistry.hasAny registry = false then
    { calls := [], outcome := Outcome.preconditionFail }
  else
    let journals := JournalRegistry.list registry
    { calls := journals.map fun j => (j.id, page)
      outcome :=
        collabOutcome (promiseAll (journals.map fun j =>
          (fetchArticles j.id page).map fun articles =>
            { journalId := j.id
              candidates := KeywordScanner.filterCandidates keywords articles })) }

/-- `identifyCandidates` with the page left at its default of 1. -/
def identifyCandidatesDefaultPage {ε : Type}
    (fetchArticles : JStr → Int → Except ε (List Article))
    (registry : List Journal) (keywords : List JStr) :
    Run (JStr × Int) ε (List JournalCandidateResult) :=
  identifyCandidates fetchArticles registry keywords 1

/-! ### Concrete sample data used by witnesses -/

/-- A sample journal. -/
def journalA : Journal :=
  { id := "nature".toList, displayName := "Nature".toList, endpoints := [] }

/-- A second sample journal with a distinct id. -/
def journalB : Journal :=
  { id := "science".toList, displayName := "Science".toList, endpoints := [] }

/-- A sample article. -/
def articleA : Article :=
  { id := "a1".toList, title := "Code for X".toList, abstract := [],
    fullText := [], supplementaryUrl := [] }

/-- A second sample article. -/
def articleB : Article :=
  { id := "a2".toList, title := "Ice cores".toList, abstract := [],
    fullText := [], supplementaryUrl := [] }

/-- A third sample article. -/
def articleC : Article :=
  { id := "a3".toList, title := "Survey".toList, abstract := [],
    fullText := [], supplementaryUrl := [] }

/-- A sample bundle for an article, with empty file list. -/
def bundleFor (a : Article) : SupplementaryBundle :=
  { articleId := a.id, articleTitle := a.title, files := [], tempDir := [] }

/-- A sample list of candidate articles. -/
def wC : List Article := [articleA, articleB, articleC]

/-- A sample download collaborator that always succeeds. -/
def wdl : Article → Except Unit SupplementaryBundle :=
  fun a => Except.ok (bundleFor a)

/-- A sample download collaborator that fails exactly on `articleB`. -/
def wdlFail : Article → Except Unit SupplementaryBundle :=
  fun a => if a = articleB then Except.error () else Except.ok (bundleFor a)

/-- A sample fetch collaborator that always returns an empty page. -/
def wfetch : JStr → Int → Except Unit (List Article) :=
  fun _ _ => Except.ok []

/-- A sample fetch collaborator that fails exactly on `journalB`'s id. -/
def wfetchFail : JStr → Int → Except Unit (List Article) :=
  fun id _ => if id = journalB.id then Except.error () else Except.ok []

end Mcfly

/-! ## Theorems -/

namespace Mcfly

open KeywordScanner

theorem jsIncludes_iff (needle hay : JStr) :
    jsIncludes needle hay = true ↔ SubstrOf needle hay := by
  induction hay with
  | nil =>
    simp only [jsIncludes, List.isEmpty_iff, SubstrOf]
    constructor
    · rintro rfl; exact ⟨[], [], rfl⟩
    · rintro ⟨pre, suf, h⟩
      rcases List.append_eq_nil.mp (List.append_eq_nil.mp h.symm).1 with ⟨-, h2⟩
      exact h2
  | cons c rest ih =>
    simp only [jsIncludes, Bool.or_eq_true, List.isPrefixOf_iff_prefix, ih]
    constructor
    · rintro (⟨suf, hsuf⟩ | ⟨pre, suf, hps⟩)
      · exact ⟨[], suf, by simpa using hsuf.symm⟩
      · exact ⟨c :: pre, suf, by simp [hps]⟩
    · rintro ⟨pre, suf, hps⟩
      match pre, hps with
      | [], hps => exact Or.inl ⟨suf, by simpa using hps.symm⟩
      | p :: pre, hps =>
        right
        simp only [List.cons_append, List.cons_eq_cons] at hps
        exact ⟨pre, suf, hps.2⟩

/-- C1: `isCandidate` is true iff some lower-cased keyword is a substring of
the lower-cased space-joined concatenation of the article's three text
fields, and an empty keyword list yields false for every article. -/
theorem C1_isCandidate_spec (K : List JStr) (A : Article) :
    (isCandidate K A = true ↔
      ∃ kw ∈ K, SubstrOf (toLowerCase kw) (toLowerCase (joinedFields A))) ∧
    isCandidate [] A = false := by
  refine ⟨?_, rfl⟩
  unfold isCandidate
  rcases K with _ | ⟨k, K⟩
  · simp
  · rw [if_neg (by simp)]
    simp only [List.any_eq_true, jsIncludes_iff]

/-- C10: if the keyword list contains the empty string then every article,
including one whose three text fields are all empty, is a candidate. -/
theorem C10_empty_keyword_matches_all (K : List JStr) (A : Article)
    (h : ([] : JStr) ∈ K) :
    isCandidate K A = true := by
  have hne : K.length ≠ 0 := by
    intro hlen
    rw [List.length_eq_zero] at hlen
    simp [hlen] at h
  unfold isCandidate
  rw [if_neg hne]
  refine List.any_eq_true.mpr ⟨[], h, ?_⟩
  exact (jsIncludes_iff _ _).mpr ⟨[], toLowerCase (joinedFields A), rfl⟩

/-- Witness for C10 at the concrete input `K = [""]` and the article whose
five fields are all empty. -/
theorem C10_witness :
    ([] : JStr) ∈ [([] : JStr)] ∧
      isCandidate [[]] ⟨[], [], [], [], []⟩ = true :=
  ⟨by decide, C10_empty_keyword_matches_all [[]] ⟨[], [], [], [], []⟩ (by decide)⟩

/-! ### Registry lemmas -/

namespace JournalRegistry

theorem get_register (J : Journal) (R : List Journal) :
    get J.id (register J R) = some J := by
  induction R with
  | nil => simp [register, get]
  | cons j rest ih =>
    by_cases h : j.id = J.id
    · simp [register, get, h]
    · simp [register, get, h, ih]

theorem get_eq_none (id : JStr) (R : List Journal)
    (h : id ∉ R.map Journal.id) : get id R = none := by
  induction R with
  | nil => rfl
  | cons j rest ih =>
    simp only [List.map_cons, List.mem_cons, not_or] at h
    have h1 : j.id ≠ id := fun hh => h.1 hh.symm
    simp [get, h1, ih h.2]

theorem remove_eq_of_not_mem (id : JStr) (R : List Journal)
    (h : id ∉ R.map Journal.id) : remove id R = (false, R) := by
  induction R with
  | nil => rfl
  | cons j rest ih =>
    simp only [List.map_cons, List.mem_cons, not_or] at h
    have h1 : j.id ≠ id := fun hh => h.1 hh.symm
    simp [remove, h1, ih h.2]

theorem not_mem_ids_remove (id : JStr) (R : List Journal)
    (hnd : (R.map Journal.id).Nodup) :
    id ∉ ((remove id R).2).map Journal.id := by
  induction R with
  | nil => simp [remove]
  | cons j rest ih =>
    simp only [List.map_cons, List.nodup_cons] at hnd
    by_cases h : j.id = id
    · subst h
      simpa [remove] using hnd.1
    · have hb : (j.id == id) = false := beq_eq_false_iff_ne.mpr h
      simp only [remove, hb, Bool.false_eq_true, if_false, List.map_cons,
        List.mem_cons, not_or]
      exact ⟨fun hh => h hh.symm, ih hnd.2⟩

theorem register_map_id_of_mem (J : Journal) (R : List Journal)
    (h : J.id ∈ R.map Journal.id) :
    (register J R).map Journal.id = R.map Journal.id := by
  induction R with
  | nil => simp at h
  | cons j rest ih =>
    by_cases hj : j.id = J.id
    · simp [register, hj]
    · simp only [List.map_cons, List.mem_cons] at h
      have hmem : J.id ∈ rest.map Journal.id :=
        h.resolve_left fun hh => hj hh.symm
      simp [register, hj, ih hmem]

end JournalRegistry

/-- C7: registering a journal makes it retrievable under its id; removing
an id (in a registry with unique ids, as every reachable registry state
has) makes it absent, and a second removal reports false. -/
theorem C7_registry_register_remove (R : List Journal) (J : Journal)
    (hnd : (R.map Journal.id).Nodup) :
    JournalRegistry.get J.id (JournalRegistry.register J R) = some J ∧
    JournalRegistry.get J.id (JournalRegistry.remove J.id R).2 = none ∧
    (JournalRegistry.remove J.id (JournalRegistry.remove J.id R).2).1 = false := by
  refine ⟨JournalRegistry.get_register J R, ?_, ?_⟩
  · exact JournalRegistry.get_eq_none _ _ (JournalRegistry.not_mem_ids_remove _ _ hnd)
  · rw [JournalRegistry.remove_eq_of_not_mem _ _ (JournalRegistry.not_mem_ids_remove _ _ hnd)]

/-- Witness for C7 at a two-journal registry with distinct ids. -/
theorem C7_witness :
    (([journalA, journalB].map Journal.id).Nodup) ∧
    (JournalRegistry.get journalA.id
        (JournalRegistry.register journalA [journalA, journalB]) = some journalA ∧
     JournalRegistry.get journalA.id
        (JournalRegistry.remove journalA.id [journalA, journalB]).2 = none ∧
     (JournalRegistry.remove journalA.id
        (JournalRegistry.remove journalA.id [journalA, journalB]).2).1 = false) :=
  ⟨by decide, C7_registry_register_remove [journalA, journalB] journalA (by decide)⟩

/-- C8: re-registering an id already present replaces in place, leaving the
id sequence of `list()` (hence both length and the entry's position)
unchanged; and the constructor folds `register` over the initial list, so
duplicate ids at construction get the same replace-in-place semantics. -/
theorem C8_register_in_place (R : List Journal) (J : Journal)
    (init : List Journal) (j : Journal)
    (h : J.id ∈ R.map Journal.id) :
    (JournalRegistry.list (JournalRegistry.register J R)).map Journal.id =
      (JournalRegistry.list R).map Journal.id ∧
    (JournalRegistry.list (JournalRegistry.register J R)).length =
      (JournalRegistry.list R).length ∧
    JournalRegistry.ofList (init ++ [j]) =
      JournalRegistry.register j (JournalRegistry.ofList init) := by
  refine ⟨JournalRegistry.register_map_id_of_mem J R h, ?_, ?_⟩
  · have := congrArg List.length (JournalRegistry.register_map_id_of_mem J R h)
    simpa [JournalRegistry.list] using this
  · simp [JournalRegistry.ofList, List.foldl_append]

/-- Witness for C8: re-register `journalA` into a registry already holding
its id; construct from an initial list ending in `journalA`. -/
theorem C8_witness :
    journalA.id ∈ [journalA, journalB].map Journal.id ∧
    ((JournalRegistry.list (JournalRegistry.register journalA [journalA, journalB])).map Journal.id =
      (JournalRegistry.list [journalA, journalB]).map Journal.id ∧
     (JournalRegistry.list (JournalRegistry.register journalA [journalA, journalB])).length =
      (JournalRegistry.list [journalA, journalB]).length ∧
     JournalRegistry.ofList ([journalB] ++ [journalA]) =
      JournalRegistry.register journalA (JournalRegistry.ofList [journalB])) :=
  ⟨by decide, C8_register_in_place [journalA, journalB] journalA [journalB] journalA (by decide)⟩

/-! ### Promise.all lemmas -/

theorem collabOutcome_eq_ok_iff {ε α : Type} (r : Except ε α) (v : α) :
    collabOutcome r = Outcome.ok v ↔ r = Except.ok v := by
  cases r <;> simp [collabOutcome]

theorem promiseAll_ok_cons {ε β : Type} (b : β) (rest : List (Except ε β)) :
    promiseAll (Except.ok b :: rest) =
      (promiseAll rest).map fun bs => b :: bs := by
  cases hp : promiseAll rest <;> simp [promiseAll, hp, Except.map]

theorem promiseAll_map_ok_iff {ε β γ : Type} (f : γ → Except ε β)
    (l : List γ) (bs : List β) :
    promiseAll (l.map f) = Except.ok bs ↔
      List.Forall₂ (fun a b => f a = Except.ok b) l bs := by
  induction l generalizing bs with
  | nil => simp [promiseAll, List.forall₂_nil_left_iff, eq_comm]
  | cons a l ih =>
    cases hfa : f a with
    | error e =>
      rw [List.map_cons, hfa]
      constructor
      · intro h; cases h
      · intro hf
        rcases List.forall₂_cons_left_iff.mp hf with ⟨b, bs', hab, -, -⟩
        rw [hfa] at hab
        cases hab
    | ok b =>
      rw [List.map_cons, hfa, promiseAll_ok_cons]
      cases hp : promiseAll (l.map f) with
      | error e =>
        simp only [Except.map]
        constructor
        · intro h; cases h
        · intro hf
          rcases List.forall₂_cons_left_iff.mp hf with ⟨b', bs', hab, htail, rfl⟩
          have := (ih bs').mpr htail
          rw [hp] at this
          cases this
      | ok tail =>
        simp only [Except.map, Except.ok.injEq]
        constructor
        · rintro rfl
          exact List.Forall₂.cons hfa ((ih tail).mp hp)
        · intro hf
          rcases List.forall₂_cons_left_iff.mp hf with ⟨b', bs', hab, htail, rfl⟩
          rw [hfa] at hab
          injection hab with hb
          subst hb
          have := (ih bs').mpr htail
          rw [hp] at this
          injection this with ht
          rw [ht]

theorem promiseAll_map_error {ε β γ : Type} (f : γ → Except ε β)
    (pre : List γ) (a : γ) (post : List γ) (e : ε)
    (hpre : ∀ x ∈ pre, ∃ b, f x = Except.ok b)
    (ha : f a = Except.error e) :
    promiseAll ((pre ++ a :: post).map f) = Except.error e := by
  induction pre with
  | nil =>
    rw [List.nil_append, List.map_cons, ha]
    rfl
  | cons p pre ih =>
    obtain ⟨b, hb⟩ := hpre p (by simp)
    rw [List.cons_append, List.map_cons, hb, promiseAll_ok_cons,
      ih fun x hx => hpre x (by simp [hx])]
    rfl

/-! ### downloadBundles claims -/

theorem downloadBundles_valid {ε : Type}
    (dl : Article → Except ε SupplementaryBundle)
    (C : List Article) (N : Rat) (hden : N.den = 1) (hpos : 1 ≤ N) :
    downloadBundles dl C N =
      { calls := C.take N.num.toNat
        outcome :=
          collabOutcome (promiseAll ((C.take N.num.toNat).map dl)) } := by
  unfold downloadBundles
  rw [if_neg]
  push_neg
  exact ⟨hden, hpos⟩

/-- C2: with a positive integral cap, the download collaborator is invoked
once per element of the first `min(cap, |C|)` candidates in input order,
and the run resolves with bundles exactly when each selected candidate's
download resolves, in that same selection order. -/
theorem C2_downloadBundles_cap_and_order {ε : Type}
    (dl : Article → Except ε SupplementaryBundle)
    (C : List Article) (N : Rat) (hden : N.den = 1) (hpos : 1 ≤ N) :
    (downloadBundles dl C N).calls = C.take N.num.toNat ∧
    (downloadBundles dl C N).calls.length = min N.num.toNat C.length ∧
    ∀ bs, (downloadBundles dl C N).outcome = Outcome.ok bs ↔
      List.Forall₂ (fun a b => dl a = Except.ok b) (C.take N.num.toNat) bs := by
  rw [downloadBundles_valid dl C N hden hpos]
  refine ⟨rfl, by simp, fun bs => ?_⟩
  rw [collabOutcome_eq_ok_iff, promiseAll_map_ok_iff]

/-- Witness for C2: cap 2 over three candidates with an always-resolving
download collaborator. -/
theorem C2_witness :
    ((2 : Rat)).den = 1 ∧ (1 : Rat) ≤ (2 : Rat) ∧
    ((downloadBundles wdl wC 2).calls = wC.take ((2 : Rat)).num.toNat ∧
     (downloadBundles wdl wC 2).calls.length = min ((2 : Rat)).num.toNat wC.length ∧
     ∀ bs, (downloadBundles wdl wC 2).outcome = Outcome.ok bs ↔
       List.Forall₂ (fun a b => wdl a = Except.ok b) (wC.take ((2 : Rat)).num.toNat) bs) :=
  ⟨by norm_num, by norm_num,
    C2_downloadBundles_cap_and_order wdl wC 2 (by norm_num) (by norm_num)⟩

/-- C6: a cap that is zero, negative, or not an integer makes
`downloadBundles` fail before invoking the download collaborator even
once. -/
theorem C6_downloadBundles_rejects_bad_cap {ε : Type}
    (dl : Article → Except ε SupplementaryBundle)
    (C : List Article) (N : Rat) (h : N ≤ 0 ∨ N.den ≠ 1) :
    (downloadBundles dl C N).calls = [] ∧
    (downloadBundles dl C N).outcome = Outcome.preconditionFail := by
  have hcond : N.den ≠ 1 ∨ N < 1 := by
    rcases h with h | h
    · exact Or.inr (lt_of_le_of_lt h one_pos)
    · exact Or.inl h
  unfold downloadBundles
  rw [if_pos hcond]
  exact ⟨rfl, rfl⟩

/-- Witness for C6 at the cap 0. -/
theorem C6_witness :
    ((0 : Rat) ≤ 0 ∨ ((0 : Rat)).den ≠ 1) ∧
    ((downloadBundles wdl wC 0).calls = [] ∧
     (downloadBundles wdl wC 0).outcome = Outcome.preconditionFail) :=
  ⟨Or.inl le_rfl, C6_downloadBundles_rejects_bad_cap wdl wC 0 (Or.inl le_rfl)⟩

/-! ### identifyCandidates claims -/

/-- The per-journal task issued by `identifyCandidates`. -/
theorem identifyCandidates_nonempty {ε : Type}
    (fetch : JStr → Int → Except ε (List Article))
    (J : Journal) (R : List Journal) (kws : List JStr) (page : Int) :
    identifyCandidates fetch (J :: R) kws page =
      { calls := (J :: R).map fun j => (j.id, page)
        outcome :=
          collabOutcome (promiseAll ((J :: R).map fun j =>
            (fetch j.id page).map fun articles =>
              { journalId := j.id
                candidates := KeywordScanner.filterCandidates kws articles })) } := by
  unfold identifyCandidates
  rw [if_neg]
  · rfl
  · simp [JournalRegistry.hasAny]

theorem fetchTask_ok_iff {ε : Type}
    (fetch : JStr → Int → Except ε (List Article))
    (kws : List JStr) (page : Int) (jo : Journal) (r : JournalCandidateResult) :
    ((fetch jo.id page).map fun articles =>
        ({ journalId := jo.id
           candidates := KeywordScanner.filterCandidates kws articles } :
          JournalCandidateResult)) = Except.ok r ↔
      ∃ articles, fetch jo.id page = Except.ok articles ∧
        r = { journalId := jo.id
              candidates := KeywordScanner.filterCandidates kws articles } := by
  cases hf : fetch jo.id page with
  | error e => simp [Except.map]
  | ok arts => simp [Except.map, eq_comm]

/-- C3: an empty registry is rejected before any fetch; a non-empty
registry leads to exactly one fetch per registered journal with arguments
`(journal.id, page)`, a resolved run pairs each journal, in order, with the
scanner-filtered articles of its fetch, and the page defaults to 1. -/
theorem C3_identifyCandidates_spec {ε : Type}
    (fetch : JStr → Int → Except ε (List Article))
    (kws : List JStr) (page : Int) (J : Journal) (R : List Journal) :
    identifyCandidates fetch [] kws page =
      { calls := [], outcome := Outcome.preconditionFail } ∧
    (identifyCandidates fetch (J :: R) kws page).calls =
      (J :: R).map (fun jo => (jo.id, page)) ∧
    (∀ rs, (identifyCandidates fetch (J :: R) kws page).outcome = Outcome.ok rs ↔
      List.Forall₂
        (fun jo r => ∃ articles, fetch jo.id page = Except.ok articles ∧
          r = { journalId := jo.id
                candidates := KeywordScanner.filterCandidates kws articles })
        (J :: R) rs) ∧
    identifyCandidatesDefaultPage fetch (J :: R) kws =
      identifyCandidates fetch (J :: R) kws 1 := by
  refine ⟨rfl, ?_, fun rs => ?_, rfl⟩
  · rw [identifyCandidates_nonempty]
  · rw [identifyCandidates_nonempty]
    show collabOutcome _ = _ ↔ _
    rw [collabOutcome_eq_ok_iff, promiseAll_map_ok_iff]
    constructor
    · exact fun hf => hf.imp fun jo r hab => (fetchTask_ok_iff fetch kws page jo r).mp hab
    · exact fun hf => hf.imp fun jo r hab => (fetchTask_ok_iff fetch kws page jo r).mpr hab

/-- C5: in both orchestrators, a single failing collaborator invocation
(with every invocation issued before it resolving) makes the run's outcome
that same failure, unchanged, with no resolved result list. -/
theorem C5_collaborator_failure_propagates {ε : Type}
    (dl : Article → Except ε SupplementaryBundle)
    (C : List Article) (N : Rat)
    (pre post : List Article) (a : Article) (e : ε)
    (fetch : JStr → Int → Except ε (List Article))
    (J : Journal) (R : List Journal) (kws : List JStr) (page : Int)
    (preJ postJ : List Journal) (j : Journal) (e2 : ε)
    (hden : N.den = 1) (hpos : 1 ≤ N)
    (hsplit : C.take N.num.toNat = pre ++ a :: post)
    (hpre : ∀ x ∈ pre, ∃ b, dl x = Except.ok b)
    (ha : dl a = Except.error e)
    (hsplitJ : J :: R = preJ ++ j :: postJ)
    (hpreJ : ∀ x ∈ preJ, ∃ articles, fetch x.id page = Except.ok articles)
    (hj : fetch j.id page = Except.error e2) :
    (downloadBundles dl C N).outcome = Outcome.collabFail e ∧
    (identifyCandidates fetch (J :: R) kws page).outcome = Outcome.collabFail e2 := by
  constructor
  · rw [downloadBundles_valid dl C N hden hpos]
    show collabOutcome _ = _
    rw [hsplit, promiseAll_map_error dl pre a post e hpre ha]
    rfl
  · rw [identifyCandidates_nonempty]
    show collabOutcome _ = _
    rw [hsplitJ, promiseAll_map_error _ preJ j postJ e2
      (fun x hx => by
        obtain ⟨arts, harts⟩ := hpreJ x hx
        exact ⟨_, by rw [harts]; rfl⟩)
      (by rw [hj]; rfl)]
    rfl

/-- Witness for C5: cap 10 over three candidates whose second download
fails, and a two-journal registry whose second fetch fails. -/
theorem C5_witness :
    ((10 : Rat)).den = 1 ∧ (1 : Rat) ≤ (10 : Rat) ∧
    wC.take ((10 : Rat)).num.toNat = [articleA] ++ articleB :: [articleC] ∧
    (∀ x ∈ [articleA], ∃ b, wdlFail x = Except.ok b) ∧
    wdlFail articleB = Except.error () ∧
    [journalA, journalB] = [journalA] ++ journalB :: [] ∧
    (∀ x ∈ [journalA], ∃ articles, wfetchFail x.id 1 = Except.ok articles) ∧
    wfetchFail journalB.id 1 = Except.error () ∧
    ((downloadBundles wdlFail wC 10).outcome = Outcome.collabFail () ∧
     (identifyCandidates wfetchFail [journalA, journalB] [] 1).outcome =
       Outcome.collabFail ()) := by
  have hpre : ∀ x ∈ [articleA], ∃ b, wdlFail x = Except.ok b := by
    intro x hx
    rw [List.mem_singleton] at hx
    subst hx
    exact ⟨bundleFor articleA, rfl⟩
  have hpreJ : ∀ x ∈ [journalA], ∃ articles, wfetchFail x.id 1 = Except.ok articles := by
    intro x hx
    rw [List.mem_singleton] at hx
    subst hx
    exact ⟨[], rfl⟩
  exact ⟨by norm_num, by norm_num, by decide, hpre, rfl, by decide, hpreJ,
    rfl,
    C5_collaborator_failure_propagates wdlFail wC 10 [articleA] [articleC]
      articleB () wfetchFail journalA [journalB] [] 1 [journalA] [] journalB ()
      (by norm_num) (by norm_num) (by decide) hpre rfl (by decide)
      hpreJ rfl⟩

theorem map_journalId_of_forall₂ {ε : Type}
    (fetch : JStr → Int → Except ε (List Article))
    (kws : List JStr) (page : Int)
    {l : List Journal} {rs : List JournalCandidateResult}
    (hf : List.Forall₂
      (fun jo r =>
        ((fetch jo.id page).map fun articles =>
          ({ journalId := jo.id
             candidates := KeywordScanner.filterCandidates kws articles } :
            JournalCandidateResult)) = Except.ok r) l rs) :
    rs.map JournalCandidateResult.journalId = l.map Journal.id := by
  induction hf with
  | nil => rfl
  | cons hab htail ih =>
    rename_i jo r l rs
    obtain ⟨arts, -, hr⟩ := (fetchTask_ok_iff fetch kws page jo r).mp hab
    simp [hr, ih]

/-- C9: a resolved `identifyCandidates` run lists its per-journal results
in exactly the registry's list order: the sequence of `journalId` fields
equals the sequence of registered journal ids. -/
theorem C9_results_follow_registry_order {ε : Type}
    (fetch : JStr → Int → Except ε (List Article))
    (R : List Journal) (kws : List JStr) (page : Int)
    (rs : List JournalCandidateResult)
    (h : (identifyCandidates fetch R kws page).outcome = Outcome.ok rs) :
    rs.map JournalCandidateResult.journalId = R.map Journal.id := by
  rcases R with _ | ⟨J, R⟩
  · cases h
  · rw [identifyCandidates_nonempty] at h
    replace h := (collabOutcome_eq_ok_iff _ _).mp h
    exact map_journalId_of_forall₂ fetch kws page ((promiseAll_map_ok_iff _ _ _).mp h)

/-- Witness for C9 at a two-journal registry with an always-resolving
fetch collaborator. -/
theorem C9_witness :
    (identifyCandidates wfetch [journalA, journalB] [] 1).outcome =
      Outcome.ok [{ journalId := journalA.id, candidates := [] },
                  { journalId := journalB.id, candidates := [] }] ∧
    ([{ journalId := journalA.id, candidates := ([] : List Article) },
      { journalId := journalB.id, candidates := [] }].map
        JournalCandidateResult.journalId) =
      [journalA, journalB].map Journal.id :=
  ⟨by decide,
    C9_results_follow_registry_order wfetch [journalA, journalB] [] 1
      [{ journalId := journalA.id, candidates := [] },
       { journalId := journalB.id, candidates := [] }] (by decide)⟩

/-! ### CodeFileIdentifier claims -/

theorem lastIndexOfDot_eq_none_iff (s : JStr) :
    lastIndexOfDot s = none ↔ '.' ∉ s := by
  induction s with
  | nil => simp [lastIndexOfDot]
  | cons c rest ih =>
    simp only [lastIndexOfDot, List.mem_cons, not_or]
    cases hr : lastIndexOfDot rest with
    | some i =>
      have hmem : '.' ∈ rest := by
        by_contra hn
        exact absurd (ih.mpr hn) (by simp [hr])
      simp [hmem]
    | none =>
      have hrest : '.' ∉ rest := ih.mp hr
      by_cases hc : c = '.'
      · subst hc
        simp [hrest]
      · simp [hc, hrest, Ne.symm hc]

theorem lastIndexOfDot_some (s : JStr) (i : Nat)
    (h : lastIndexOfDot s = some i) :
    ∃ stem ext, s = stem ++ '.' :: ext ∧ stem.length = i ∧ '.' ∉ ext := by
  induction s generalizing i with
  | nil => cases h
  | cons c rest ih =>
    simp only [lastIndexOfDot] at h
    cases hr : lastIndexOfDot rest with
    | some k =>
      rw [hr] at h
      simp only [Option.some.injEq] at h
      subst h
      obtain ⟨stem, ext, hdec, hlen, hnot⟩ := ih k hr
      exact ⟨c :: stem, ext, by rw [hdec, List.cons_append], by simp [hlen], hnot⟩
    | none =>
      rw [hr] at h
      by_cases hc : c = '.'
      · subst hc
        simp only [beq_self_eq_true, if_true, Option.some.injEq] at h
        subst h
        exact ⟨[], rest, rfl, rfl, (lastIndexOfDot_eq_none_iff rest).mp hr⟩
      · have : ¬(c == '.') = true := by simpa using hc
        simp [this] at h

theorem lastIndexOfDot_append (stem ext : JStr) (hext : '.' ∉ ext) :
    lastIndexOfDot (stem ++ '.' :: ext) = some stem.length := by
  induction stem with
  | nil =>
    simp only [List.nil_append, lastIndexOfDot,
      (lastIndexOfDot_eq_none_iff ext).mpr hext]
    simp
  | cons c stem ih =>
    simp only [List.cons_append, lastIndexOfDot, List.append_eq]
    rw [ih]
    simp

theorem isCodeFile_none (exts : List JStr) (name : JStr)
    (hd : lastIndexOfDot name = none) :
    CodeFileIdentifier.isCodeFile exts name = false := by
  unfold CodeFileIdentifier.isCodeFile
  rw [hd]

theorem isCodeFile_some (exts : List JStr) (name : JStr) (i : Nat)
    (hd : lastIndexOfDot name = some i) :
    CodeFileIdentifier.isCodeFile exts name =
      if i = 0 ∨ i = name.length - 1 then false
      else exts.contains (toLowerCase (name.drop i)) := by
  unfold CodeFileIdentifier.isCodeFile
  rw [hd]

theorem isCodeFile_iff (E : List JStr) (name : JStr) :
    CodeFileIdentifier.isCodeFile (CodeFileIdentifier.setExtensions E) name = true ↔
      CodeFileIdentifier.HasCodeExt E name := by
  constructor
  · intro h
    cases hd : lastIndexOfDot name with
    | none =>
      rw [isCodeFile_none _ _ hd] at h
      cases h
    | some i =>
      rw [isCodeFile_some _ _ i hd] at h
      by_cases hcond : i = 0 ∨ i = name.length - 1
      · rw [if_pos hcond] at h
        cases h
      · rw [if_neg hcond] at h
        push_neg at hcond
        obtain ⟨hi0, hilen⟩ := hcond
        obtain ⟨stem, ext, hdec, hlen, hnot⟩ := lastIndexOfDot_some name i hd
        have hstem : stem ≠ [] := by
          intro hnil
          apply hi0
          rw [← hlen, hnil]
          rfl
        have hlname : name.length = stem.length + 1 + ext.length := by
          rw [hdec]
          simp only [List.length_append, List.length_cons]
          omega
        have hextne : ext ≠ [] := by
          intro hnil
          apply hilen
          subst hnil
          simp only [List.length_nil] at hlname
          omega
        have hdrop : name.drop i = '.' :: ext := by
          rw [hdec, ← hlen, List.drop_left]
        rw [hdrop] at h
        refine ⟨stem, ext, hdec, hstem, hextne, hnot, ?_⟩
        simpa [CodeFileIdentifier.setExtensions] using h
  · rintro ⟨stem, ext, hdec, hstem, hextne, hnot, hmem⟩
    subst hdec
    rw [isCodeFile_some _ _ stem.length (lastIndexOfDot_append stem ext hnot)]
    have hlname : (stem ++ '.' :: ext).length = stem.length + 1 + ext.length := by
      simp only [List.length_append, List.length_cons]
      omega
    have hc : ¬(stem.length = 0 ∨
        stem.length = (stem ++ '.' :: ext).length - 1) := by
      push_neg
      refine ⟨by simpa using hstem, ?_⟩
      have he : ext.length ≠ 0 := by simpa using hextne
      rw [hlname]
      omega
    rw [if_neg hc, List.drop_left]
    simpa [CodeFileIdentifier.setExtensions] using hmem

/-- C4: `identifyCodeFiles` filters the bundle's files in order (an
order-preserving subsequence), keeping exactly those whose name has a
recognised extension: a non-empty dot-free extension after a last dot that
is neither at position 0 nor at the very end, matched case-insensitively
against the lower-case-normalised configured set. -/
theorem C4_identifyCodeFiles_spec (E : List JStr) (B : SupplementaryBundle)
    (name : JStr) :
    CodeFileIdentifier.identifyCodeFiles (CodeFileIdentifier.setExtensions E) B =
      B.files.filter
        (fun f => CodeFileIdentifier.isCodeFile (CodeFileIdentifier.setExtensions E) f.name) ∧
    List.Sublist
      (CodeFileIdentifier.identifyCodeFiles (CodeFileIdentifier.setExtensions E) B)
      B.files ∧
    (CodeFileIdentifier.isCodeFile (CodeFileIdentifier.setExtensions E) name = true ↔
      CodeFileIdentifier.HasCodeExt E name) :=
  ⟨rfl, List.filter_sublist B.files, isCodeFile_iff E name⟩

end Mcfly
